import Mathlib

/-!
Verification of the parallel terraform orchestrator
(`adf-build/shared/helpers/terraform/adf-parallel-terraform.py`) and of the
workspace executor (`terraform.py`).

The scheduler's state is embedded from the local variables of `main`:
`waiting_processes`, `running_processes`, `failed_processes` and
`completed_processes`.  Registered tasks are identified by their position in
the registration order (the insertion order of the `child_processes` dict,
whose keys are distinct workspace paths); a task's behaviour is summarised by
how many liveness polls report it alive after it is started (`alive_polls`)
and by the exit code its process ends with (`exitcode`).  `rem` is the
environment part of the state: how many further polls will still see each
running process alive.
-/

namespace AdfParallelTerraform

/-- Behaviour of one child process: the number of `is_alive()` polls that
still return `True` after the process is started, and the exit code the
process terminates with. -/
structure Task where
  alive_polls : Nat
  exitcode : Int
deriving DecidableEq, Repr

/-- Out-of-range lookups never happen along the loop invariant; the default
task exits cleanly at once. -/
def defaultTask : Task := ⟨0, 0⟩

/-- The mutable state of the scheduling loop in `main`
(lines 197-230 of adf-parallel-terraform.py), plus the environment
component `rem`. -/
structure LoopState where
  waiting_processes : List Nat
  running_processes : List Nat
  failed_processes : List Nat
  completed_processes : Nat
  rem : Nat → Nat

/-- The body of `for d in child_processes.keys():` for a single key `d`
(lines 203-221): a waiting task is started if the running set is below
`max_processes`; a running task is polled, and reaped when no longer alive,
appending it to `failed_processes` exactly when its exit code is nonzero and
always incrementing `completed_processes`. -/
def loopBody (max_processes : Nat) (tasks : List Task) (s : LoopState) (d : Nat) :
    LoopState :=
  if d ∈ s.waiting_processes then
    if max_processes ≤ s.running_processes.length then s
    else
      { s with
        running_processes := s.running_processes ++ [d]
        waiting_processes := s.waiting_processes.erase d
        rem := fun x => if x = d then (tasks.getD d defaultTask).alive_polls else s.rem x }
  else if d ∈ s.running_processes then
    if s.rem d ≠ 0 then
      { s with rem := fun x => if x = d then s.rem d - 1 else s.rem x }
    else if (tasks.getD d defaultTask).exitcode ≠ 0 then
      { s with
        failed_processes := s.failed_processes ++ [d]
        running_processes := s.running_processes.erase d
        completed_processes := s.completed_processes + 1 }
    else
      { s with
        running_processes := s.running_processes.erase d
        completed_processes := s.completed_processes + 1 }
  else s

/-- One full scan of `for d in child_processes.keys():` — every registered
task, in registration order. -/
def scanOnce (max_processes : Nat) (tasks : List Task) (s : LoopState) : LoopState :=
  (List.range tasks.length).foldl (loopBody max_processes tasks) s

/-- The `while True` exit test (line 223):
`len(running_processes) == 0 and len(waiting_processes) == 0`. -/
def loopDone (s : LoopState) : Bool :=
  s.running_processes.length == 0 && s.waiting_processes.length == 0

/-- The `while True:` loop (lines 202-230), fuel-indexed: each unit of fuel
is one iteration (one scan followed by the exit test). -/
def mainLoop (max_processes : Nat) (tasks : List Task) : Nat → LoopState → LoopState
  | 0, s => s
  | n + 1, s =>
    if loopDone (scanOnce max_processes tasks s) then scanOnce max_processes tasks s
    else mainLoop max_processes tasks n (scanOnce max_processes tasks s)

/-- The state right before the loop (lines 197-201):
`waiting_processes = list(child_processes.keys())`, everything else empty. -/
def initState (tasks : List Task) : LoopState :=
  { waiting_processes := List.range tasks.length
    running_processes := []
    failed_processes := []
    completed_processes := 0
    rem := fun _ => 0 }

/-- The tasks that have been reaped (left both the waiting and the running
set): they are in a terminal state. -/
def terminalTasks (tasks : List Task) (s : LoopState) : List Nat :=
  (List.range tasks.length).filter fun d =>
    decide (d ∉ s.waiting_processes ∧ d ∉ s.running_processes)

/-- The tasks that ended in the Completed state: reaped with exit code 0. -/
def completedTasks (tasks : List Task) (s : LoopState) : List Nat :=
  (List.range tasks.length).filter fun d =>
    decide (d ∉ s.waiting_processes ∧ d ∉ s.running_processes ∧
      (tasks.getD d defaultTask).exitcode = 0)

/-- The tasks that ended in the Failed state: reaped with a nonzero exit
code. -/
def failedTasks (tasks : List Task) (s : LoopState) : List Nat :=
  (List.range tasks.length).filter fun d =>
    decide (d ∉ s.waiting_processes ∧ d ∉ s.running_processes ∧
      (tasks.getD d defaultTask).exitcode ≠ 0)

/-- The exit status of the orchestrating process after the summary
(lines 232-241): `sys.exit(1)` when `len(failed_processes) > 0`, a normal
return (exit status 0) otherwise. -/
def summaryExit (failed_processes : List Nat) : Nat :=
  if 0 < failed_processes.length then 1 else 0

/-- The non-parallel branches of the plan/apply/init stages (for example
lines 171-178): the workspaces are processed in order, and the first action
that raises makes the process call `sys.exit(1)` immediately, skipping the
rest.  Each entry of the list tells whether the action for that workspace
returned without raising. -/
def nonParallelRun : List Bool → Nat
  | [] => 0
  | ok :: rest => if ok then nonParallelRun rest else 1

/-- Values of the Python expressions involved in the configuration lookups:
`os.environ.get` returns the string value of a set variable and the supplied
default otherwise. -/
inductive PyVal where
  | int (n : Int)
  | str (s : String)
deriving DecidableEq, Repr

/-- `mem_mb = os.sysconf(SC_PAGE_SIZE) * os.sysconf(SC_PHYS_PAGES) / (1024.**2)`
(lines 192-193), with the float division modelled exactly over the
rationals. -/
def mem_mb (physBytes : Nat) : ℚ := (physBytes : ℚ) / (1024 ^ 2)

/-- `mem_per_process = os.environ.get("MEM_PER_PROCESS", 512)` (line 194):
the string value of the variable when it is set, the int 512 otherwise. -/
def mem_per_process (env : Option String) : PyVal :=
  match env with
  | some v => PyVal.str v
  | none => PyVal.int 512

/-- Python division of a float by another value: dividing by a string raises
a TypeError. -/
def pyDivFloat (x : ℚ) : PyVal → Except String ℚ
  | PyVal.int n => Except.ok (x / n)
  | PyVal.str _ => Except.error ("TypeError: unsupported operand types for div")

/-- `max_processes = os.environ.get("MAX_PROCESSES", int(mem_mb/mem_per_process))`
(lines 195-196).  The default argument is evaluated before the call, so the
division runs even when MAX_PROCESSES is set; `int(...)` truncates the
nonnegative quotient, that is, takes its floor. -/
def max_processes_value (physBytes : Nat)
    (memPerProcessEnv maxProcessesEnv : Option String) : Except String PyVal :=
  match pyDivFloat (mem_mb physBytes) (mem_per_process memPerProcessEnv) with
  | Except.error e => Except.error e
  | Except.ok q =>
    match maxProcessesEnv with
    | some v => Except.ok (PyVal.str v)
    | none => Except.ok (PyVal.int ⌊q⌋)

/-- The admission test `len(running_processes) >= max_processes` (line 205):
comparing an int with a string raises a TypeError in Python 3. -/
def pyGeLen (len : Nat) : PyVal → Except String Bool
  | PyVal.int m => Except.ok (decide (m ≤ (len : Int)))
  | PyVal.str _ => Except.error ("TypeError: ge not supported between int and str")

/-- The keys of the `child_processes` dict in insertion order: the
assignment `child_processes[d] = mp.Process(...)` stores each key once,
keeping an existing key at its original position. -/
def childProcessKeys (workspaces : List String) : List String :=
  workspaces.foldl (fun keys d => if d ∈ keys then keys else keys ++ [d]) []

/-- Which workspaces get a child process registered for a stage when
parallelism is enabled: the `plan` and `apply` stages iterate over all of
`workspaces` (lines 152-178); the `init` stage processes `workspaces[0]`
inline and iterates over `workspaces[1:]` only (lines 124-150); the
`install` stage registers none. -/
def registeredWorkspaces (tf_stage : String) (workspaces : List String) :
    List String :=
  if tf_stage = "init" then childProcessKeys workspaces.tail
  else if tf_stage = "plan" ∨ tf_stage = "apply" then childProcessKeys workspaces
  else []

/-- A two-task example used to instantiate the theorems: task 0 exits with
status 1 after its first poll, task 1 exits with status 0. -/
def tasks2 : List Task := [⟨0, 1⟩, ⟨0, 0⟩]

/-- Termination measure of the loop: every waiting task costs its number of
alive polls plus two (one step to start it, its polls, one step to reap it),
every running task its remaining alive polls plus one. -/
def loopMeasure (tasks : List Task) (s : LoopState) : Nat :=
  (s.waiting_processes.map (fun d => (tasks.getD d defaultTask).alive_polls + 2)).sum +
  (s.running_processes.map (fun d => s.rem d + 1)).sum

/-- The scheduling-loop invariant: the waiting and running lists hold
distinct registered task ids and are disjoint, `failed_processes` holds
exactly the reaped tasks with a nonzero exit code, and
`completed_processes` counts every reaped task. -/
structure Inv (max_processes : Nat) (tasks : List Task) (s : LoopState) : Prop where
  waiting_nodup : s.waiting_processes.Nodup
  running_nodup : s.running_processes.Nodup
  failed_nodup : s.failed_processes.Nodup
  disj : ∀ d ∈ s.waiting_processes, d ∉ s.running_processes
  waiting_lt : ∀ d ∈ s.waiting_processes, d < tasks.length
  running_lt : ∀ d ∈ s.running_processes, d < tasks.length
  failed_iff : ∀ d, d ∈ s.failed_processes ↔
    d < tasks.length ∧ d ∉ s.waiting_processes ∧ d ∉ s.running_processes ∧
      (tasks.getD d defaultTask).exitcode ≠ 0
  completed_eq : s.completed_processes + s.waiting_processes.length +
    s.running_processes.length = tasks.length
  running_le : s.running_processes.length ≤ max_processes

end AdfParallelTerraform

namespace Terraform

/-- The terraform subcommands `Terraform.plan` and `Terraform.apply` can
spawn. -/
inductive TfCmd where
  | planCmd
  | applyCmd
deriving DecidableEq, Repr

/-- Outcome of running one `Terraform` method in a workspace: the terraform
subcommands it spawned in order, whether the `<workspace>.tfplan` artifact
exists in the workspace afterwards, and whether the method returned without
raising (all spawned subprocesses exited with status 0). -/
structure TfOutcome where
  commands : List TfCmd
  planFileExists : Bool
  ok : Bool
deriving DecidableEq, Repr

/-- `Terraform.plan` (terraform.py lines 113-127): runs
`terraform plan -out=<plan_file>`; `check_returncode` raises on a nonzero
exit, and the `-out` artifact is produced when the plan succeeds.  `planOk`
abstracts the exit status of the spawned subprocess. -/
def plan (planOk : Bool) : TfOutcome :=
  { commands := [TfCmd.planCmd], planFileExists := planOk, ok := planOk }

/-- `Terraform.apply` (terraform.py lines 129-143): if the plan artifact
does not exist in the workspace directory, run `self.plan()` first; then run
`terraform apply <plan_file>` and raise on a nonzero exit.  A failing plan
raises before apply is attempted. -/
def applyRun (planFileExists planOk applyOk : Bool) : TfOutcome :=
  if planFileExists then
    { commands := [TfCmd.applyCmd], planFileExists := planFileExists, ok := applyOk }
  else
    let pr := plan planOk
    if pr.ok then
      { commands := pr.commands ++ [TfCmd.applyCmd]
        planFileExists := pr.planFileExists
        ok := applyOk }
    else pr

end Terraform

namespace AdfParallelTerraform

theorem inv_init (b : Nat) (tasks : List Task) : Inv b tasks (initState tasks) := by
  refine ⟨List.nodup_range _, List.nodup_nil, List.nodup_nil, ?_, ?_, ?_, ?_, ?_, ?_⟩
  · intro d _
    simp [initState]
  · intro d hd
    simpa [initState] using hd
  · intro d hd
    simp [initState] at hd
  · intro d
    simp [initState, List.mem_range]
    omega
  · simp [initState]
  · simp [initState]

theorem inv_loopBody (b : Nat) (tasks : List Task) (s : LoopState) (d : Nat)
    (h : Inv b tasks s) : Inv b tasks (loopBody b tasks s d) := by
  unfold loopBody
  split_ifs with hw hb hr ha he
  · exact h
  · -- admission: running low, start the waiting task d
    have hdr : d ∉ s.running_processes := h.disj d hw
    have hdn : d < tasks.length := h.waiting_lt d hw
    refine ⟨?_, ?_, h.failed_nodup, ?_, ?_, ?_, ?_, ?_, ?_⟩
    · exact h.waiting_nodup.erase d
    · show (s.running_processes ++ [d]).Nodup
      simp [List.nodup_append, h.running_nodup, hdr]
    · intro x hx
      have hx' : x ∈ s.waiting_processes := List.mem_of_mem_erase hx
      have hxd : x ≠ d := (h.waiting_nodup.mem_erase_iff.mp hx).1
      show x ∉ s.running_processes ++ [d]
      simp [h.disj x hx', hxd]
    · intro x hx
      exact h.waiting_lt x (List.mem_of_mem_erase hx)
    · intro x hx
      rcases List.mem_append.mp hx with hx | hx
      · exact h.running_lt x hx
      · simpa using (List.mem_singleton.mp hx) ▸ hdn
    · intro x
      show x ∈ s.failed_processes ↔ x < tasks.length ∧
        x ∉ s.waiting_processes.erase d ∧ x ∉ s.running_processes ++ [d] ∧
        (tasks.getD x defaultTask).exitcode ≠ 0
      rw [h.failed_iff x]
      constructor
      · rintro ⟨hn, hxw, hxr, hex⟩
        have hxd : x ≠ d := fun hh => hxw (hh ▸ hw)
        refine ⟨hn, fun hc => hxw (List.mem_of_mem_erase hc), ?_, hex⟩
        simp [hxr, hxd]
      · rintro ⟨hn, hxw, hxr, hex⟩
        have hxd : x ≠ d := by
          intro hh
          exact hxr (by simp [hh])
        refine ⟨hn, ?_, fun hc => hxr (by simp [hc]), hex⟩
        intro hc
        exact hxw ((List.mem_erase_of_ne hxd).mpr hc)
    · show s.completed_processes + (s.waiting_processes.erase d).length +
        (s.running_processes ++ [d]).length = tasks.length
      have h1 := List.length_erase_of_mem hw
      have h2 : s.waiting_processes.length ≠ 0 := by
        intro hl
        rw [List.length_eq_zero] at hl
        simp [hl] at hw
      have h3 := h.completed_eq
      simp only [List.length_append, List.length_singleton]
      omega
    · show (s.running_processes ++ [d]).length ≤ b
      simp only [List.length_append, List.length_singleton]
      omega
  · -- running and still alive: only the poll countdown changes
    exact ⟨h.waiting_nodup, h.running_nodup, h.failed_nodup, h.disj, h.waiting_lt,
      h.running_lt, h.failed_iff, h.completed_eq, h.running_le⟩
  · -- reap with a nonzero exit code: record the failure
    have hdn : d < tasks.length := h.running_lt d hr
    have hdf : d ∉ s.failed_processes := by
      intro hc
      exact ((h.failed_iff d).mp hc).2.2.1 hr
    refine ⟨h.waiting_nodup, ?_, ?_, ?_, h.waiting_lt, ?_, ?_, ?_, ?_⟩
    · exact h.running_nodup.erase d
    · show (s.failed_processes ++ [d]).Nodup
      simp [List.nodup_append, h.failed_nodup, hdf]
    · intro x hx
      intro hc
      exact h.disj x hx (List.mem_of_mem_erase hc)
    · intro x hx
      exact h.running_lt x (List.mem_of_mem_erase hx)
    · intro x
      show x ∈ s.failed_processes ++ [d] ↔ x < tasks.length ∧
        x ∉ s.waiting_processes ∧ x ∉ s.running_processes.erase d ∧
        (tasks.getD x defaultTask).exitcode ≠ 0
      rw [List.mem_append, List.mem_singleton, h.failed_iff x]
      constructor
      · rintro (⟨hn, hxw, hxr, hex⟩ | rfl)
        · exact ⟨hn, hxw, fun hc => hxr (List.mem_of_mem_erase hc), hex⟩
        · refine ⟨hdn, hw, ?_, he⟩
          intro hc
          exact (h.running_nodup.mem_erase_iff.mp hc).1 rfl
      · rintro ⟨hn, hxw, hxr, hex⟩
        by_cases hxd : x = d
        · exact Or.inr hxd
        · refine Or.inl ⟨hn, hxw, ?_, hex⟩
          intro hc
          exact hxr ((List.mem_erase_of_ne hxd).mpr hc)
    · show s.completed_processes + 1 + s.waiting_processes.length +
        (s.running_processes.erase d).length = tasks.length
      have h1 := List.length_erase_of_mem hr
      have h2 : s.running_processes.length ≠ 0 := by
        intro hl
        rw [List.length_eq_zero] at hl
        simp [hl] at hr
      have h3 := h.completed_eq
      omega
    · exact le_trans (List.length_erase_le d s.running_processes) h.running_le
  · -- reap with exit code zero: only unregister and count
    refine ⟨h.waiting_nodup, h.running_nodup.erase d, h.failed_nodup, ?_,
      h.waiting_lt, ?_, ?_, ?_, ?_⟩
    · intro x hx hc
      exact h.disj x hx (List.mem_of_mem_erase hc)
    · intro x hx
      exact h.running_lt x (List.mem_of_mem_erase hx)
    · intro x
      show x ∈ s.failed_processes ↔ x < tasks.length ∧
        x ∉ s.waiting_processes ∧ x ∉ s.running_processes.erase d ∧
        (tasks.getD x defaultTask).exitcode ≠ 0
      rw [h.failed_iff x]
      constructor
      · rintro ⟨hn, hxw, hxr, hex⟩
        exact ⟨hn, hxw, fun hc => hxr (List.mem_of_mem_erase hc), hex⟩
      · rintro ⟨hn, hxw, hxr, hex⟩
        by_cases hxd : x = d
        · exact absurd (hxd ▸ hex) (by simpa using he)
        · refine ⟨hn, hxw, ?_, hex⟩
          intro hc
          exact hxr ((List.mem_erase_of_ne hxd).mpr hc)
    · show s.completed_processes + 1 + s.waiting_processes.length +
        (s.running_processes.erase d).length = tasks.length
      have h1 := List.length_erase_of_mem hr
      have h2 : s.running_processes.length ≠ 0 := by
        intro hl
        rw [List.length_eq_zero] at hl
        simp [hl] at hr
      have h3 := h.completed_eq
      omega
    · exact le_trans (List.length_erase_le d s.running_processes) h.running_le
  · exact h

theorem inv_foldl (b : Nat) (tasks : List Task) (l : List Nat) (s : LoopState)
    (h : Inv b tasks s) : Inv b tasks (l.foldl (loopBody b tasks) s) := by
  induction l generalizing s with
  | nil => exact h
  | cons e l ih => exact ih _ (inv_loopBody b tasks s e h)

theorem inv_scanOnce (b : Nat) (tasks : List Task) (s : LoopState)
    (h : Inv b tasks s) : Inv b tasks (scanOnce b tasks s) :=
  inv_foldl b tasks _ s h

theorem inv_mainLoop (b : Nat) (tasks : List Task) (fuel : Nat) (s : LoopState)
    (h : Inv b tasks s) : Inv b tasks (mainLoop b tasks fuel s) := by
  induction fuel generalizing s with
  | zero => exact h
  | succ n ih =>
    unfold mainLoop
    split_ifs with hd
    · exact inv_scanOnce b tasks s h
    · exact ih _ (inv_scanOnce b tasks s h)

theorem sum_map_erase (f : Nat → Nat) (l : List Nat) (a : Nat) (h : a ∈ l) :
    (l.map f).sum = f a + ((l.erase a).map f).sum := by
  have hp := List.perm_cons_erase h
  simpa using (hp.map f).sum_eq

theorem loopBody_measure (b : Nat) (tasks : List Task) (s : LoopState) (d : Nat)
    (h : Inv b tasks s) :
    loopMeasure tasks (loopBody b tasks s d) ≤ loopMeasure tasks s ∧
    ((d ∈ s.running_processes ∨
        (d ∈ s.waiting_processes ∧ s.running_processes.length < b)) →
      loopMeasure tasks (loopBody b tasks s d) + 1 ≤ loopMeasure tasks s) := by
  unfold loopBody
  split_ifs with hw hb hr ha he
  · refine ⟨le_refl _, ?_⟩
    rintro (hc | ⟨-, hc⟩)
    · exact absurd hc (h.disj d hw)
    · omega
  · -- admission: d moves from waiting to running with a fresh poll budget
    have hdr : d ∉ s.running_processes := h.disj d hw
    have hg := sum_map_erase (fun x => (tasks.getD x defaultTask).alive_polls + 2)
      s.waiting_processes d hw
    have hmap : ((s.running_processes ++ [d]).map
        (fun x => (if x = d then (tasks.getD d defaultTask).alive_polls else s.rem x) + 1)).sum
        = (s.running_processes.map (fun x => s.rem x + 1)).sum
          + ((tasks.getD d defaultTask).alive_polls + 1) := by
      rw [List.map_append, List.sum_append]
      congr 1
      · apply congrArg
        apply List.map_congr_left
        intro x hx
        have hxd : x ≠ d := fun hh => hdr (hh ▸ hx)
        rw [if_neg hxd]
      · simp
    have hkey : loopMeasure tasks
        { s with
          running_processes := s.running_processes ++ [d]
          waiting_processes := s.waiting_processes.erase d
          rem := fun x => if x = d then (tasks.getD d defaultTask).alive_polls else s.rem x }
        + 1 = loopMeasure tasks s := by
      simp only [loopMeasure]
      rw [hmap, hg]
      dsimp only
      omega
    constructor
    · omega
    · intro _
      omega
  · -- poll of a live process: its countdown drops by one
    have hf := sum_map_erase (fun x => s.rem x + 1) s.running_processes d hr
    have hf2 := sum_map_erase (fun x => (if x = d then s.rem d - 1 else s.rem x) + 1)
      s.running_processes d hr
    have hcongr : ((s.running_processes.erase d).map
        (fun x => (if x = d then s.rem d - 1 else s.rem x) + 1)).sum
        = ((s.running_processes.erase d).map (fun x => s.rem x + 1)).sum := by
      apply congrArg
      apply List.map_congr_left
      intro x hx
      rw [if_neg (h.running_nodup.mem_erase_iff.mp hx).1]
    have hkey : loopMeasure tasks
        { s with rem := fun x => if x = d then s.rem d - 1 else s.rem x } + 1
        = loopMeasure tasks s := by
      simp only [loopMeasure]
      rw [hf, hf2, hcongr]
      dsimp only
      rw [if_pos rfl]
      omega
    constructor
    · omega
    · intro _
      omega
  · -- reap with nonzero exit code
    have hf := sum_map_erase (fun x => s.rem x + 1) s.running_processes d hr
    have hrem : s.rem d = 0 := by omega
    have hkey : loopMeasure tasks
        { s with
          failed_processes := s.failed_processes ++ [d]
          running_processes := s.running_processes.erase d
          completed_processes := s.completed_processes + 1 } + 1
        = loopMeasure tasks s := by
      simp only [loopMeasure]
      dsimp only at hf
      omega
    constructor
    · omega
    · intro _
      omega
  · -- reap with exit code zero
    have hf := sum_map_erase (fun x => s.rem x + 1) s.running_processes d hr
    have hrem : s.rem d = 0 := by omega
    have hkey : loopMeasure tasks
        { s with
          running_processes := s.running_processes.erase d
          completed_processes := s.completed_processes + 1 } + 1
        = loopMeasure tasks s := by
      simp only [loopMeasure]
      dsimp only at hf
      omega
    constructor
    · omega
    · intro _
      omega
  · refine ⟨le_refl _, ?_⟩
    rintro (hc | ⟨hc, -⟩)
    · exact absurd hc hr
    · exact absurd hc hw

theorem foldl_measure_le (b : Nat) (tasks : List Task) (l : List Nat) (s : LoopState)
    (h : Inv b tasks s) :
    loopMeasure tasks (l.foldl (loopBody b tasks) s) ≤ loopMeasure tasks s := by
  induction l generalizing s with
  | nil => exact le_refl _
  | cons e l ih =>
    exact le_trans (ih _ (inv_loopBody b tasks s e h)) (loopBody_measure b tasks s e h).1

theorem mem_running_loopBody (b : Nat) (tasks : List Task) (s : LoopState) (e d : Nat)
    (hne : e ≠ d) (hd : d ∈ s.running_processes) :
    d ∈ (loopBody b tasks s e).running_processes := by
  unfold loopBody
  split_ifs with hw hb hr ha he
  · exact hd
  · show d ∈ s.running_processes ++ [e]
    exact List.mem_append.mpr (Or.inl hd)
  · exact hd
  · exact (List.mem_erase_of_ne hne.symm).mpr hd
  · exact (List.mem_erase_of_ne hne.symm).mpr hd
  · exact hd

theorem mem_running_foldl (b : Nat) (tasks : List Task) (l : List Nat) :
    ∀ (s : LoopState) (d : Nat), (∀ e ∈ l, e ≠ d) → d ∈ s.running_processes →
      d ∈ (l.foldl (loopBody b tasks) s).running_processes := by
  induction l with
  | nil =>
    intro s d _ hd
    exact hd
  | cons e l ih =>
    intro s d hne hd
    exact ih _ d (fun x hx => hne x (List.mem_cons_of_mem e hx))
      (mem_running_loopBody b tasks s e d (hne e (List.mem_cons_self e l)) hd)

theorem loopBody_not_mem (b : Nat) (tasks : List Task) (s : LoopState) (e : Nat)
    (hw : e ∉ s.waiting_processes) (hr : e ∉ s.running_processes) :
    loopBody b tasks s e = s := by
  unfold loopBody
  simp [hw, hr]

theorem foldl_not_mem (b : Nat) (tasks : List Task) (l : List Nat) (s : LoopState)
    (h : ∀ e ∈ l, e ∉ s.waiting_processes ∧ e ∉ s.running_processes) :
    l.foldl (loopBody b tasks) s = s := by
  induction l with
  | nil => rfl
  | cons e l ih =>
    rw [List.foldl_cons,
      loopBody_not_mem b tasks s e (h e (List.mem_cons_self e l)).1
        (h e (List.mem_cons_self e l)).2]
    exact ih fun x hx => h x (List.mem_cons_of_mem e hx)

theorem range_split (d n : Nat) (h : d < n) :
    List.range n = List.range d ++ d :: List.range' (d + 1) (n - d - 1) := by
  have h1 := List.range'_append 0 d (n - d) 1
  have h2 := List.range'_succ d (n - d - 1) 1
  rw [List.range_eq_range', List.range_eq_range']
  have h4 : 0 + 1 * d = d := by omega
  have h3 : n - d = n - d - 1 + 1 := by omega
  rw [h4] at h1
  rw [h3] at h1
  rw [h2] at h1
  have h5 : n - d - 1 + 1 + d = n := by omega
  rw [h5] at h1
  exact h1.symm

theorem exists_min_mem (l : List Nat) (hne : l ≠ []) : ∃ d ∈ l, ∀ e ∈ l, d ≤ e := by
  induction l with
  | nil => exact absurd rfl hne
  | cons x l ih =>
    by_cases hl : l = []
    · subst hl
      refine ⟨x, List.mem_cons_self x [], ?_⟩
      intro e he
      rw [List.mem_singleton.mp he]
    · obtain ⟨d, hd, hmin⟩ := ih hl
      by_cases hxd : x ≤ d
      · refine ⟨x, List.mem_cons_self x l, ?_⟩
        intro e he
        rcases List.mem_cons.mp he with rfl | he
        · exact le_refl e
        · exact le_trans hxd (hmin e he)
      · refine ⟨d, List.mem_cons_of_mem x hd, ?_⟩
        intro e he
        rcases List.mem_cons.mp he with rfl | he
        · omega
        · exact hmin e he

theorem scanOnce_measure_lt (b : Nat) (tasks : List Task) (s : LoopState)
    (hInv : Inv b tasks s) (hb : 1 ≤ b) (hnd : loopDone s = false) :
    loopMeasure tasks (scanOnce b tasks s) + 1 ≤ loopMeasure tasks s := by
  by_cases hre : s.running_processes = []
  · -- nothing is running: the least waiting task id is admitted when scanned
    have hwne : s.waiting_processes ≠ [] := by
      intro hwe
      simp [loopDone, hre, hwe] at hnd
    obtain ⟨d, hd, hmin⟩ := exists_min_mem s.waiting_processes hwne
    have hdn : d < tasks.length := hInv.waiting_lt d hd
    unfold scanOnce
    rw [range_split d tasks.length hdn, List.foldl_append, List.foldl_cons]
    have hpre : (List.range d).foldl (loopBody b tasks) s = s := by
      apply foldl_not_mem
      intro e hel
      have hed : e < d := List.mem_range.mp hel
      constructor
      · intro hc
        exact absurd (hmin e hc) (by omega)
      · intro hc
        rw [hre] at hc
        simp at hc
    rw [hpre]
    have hlen : s.running_processes.length < b := by
      rw [hre]
      simpa using hb
    have hstep := (loopBody_measure b tasks s d hInv).2 (Or.inr ⟨hd, hlen⟩)
    have hInv2 := inv_loopBody b tasks s d hInv
    have hle2 := foldl_measure_le b tasks (List.range' (d + 1) (tasks.length - d - 1))
      (loopBody b tasks s d) hInv2
    omega
  · -- something is running: that task is polled or reaped when scanned
    obtain ⟨d, hd⟩ := List.exists_mem_of_ne_nil s.running_processes hre
    have hdn : d < tasks.length := hInv.running_lt d hd
    unfold scanOnce
    rw [range_split d tasks.length hdn, List.foldl_append, List.foldl_cons]
    have hInv1 := inv_foldl b tasks (List.range d) s hInv
    have hle1 := foldl_measure_le b tasks (List.range d) s hInv
    have hmem1 : d ∈ ((List.range d).foldl (loopBody b tasks) s).running_processes := by
      apply mem_running_foldl
      · intro e hel
        have := List.mem_range.mp hel
        omega
      · exact hd
    have hstep := (loopBody_measure b tasks _ d hInv1).2 (Or.inl hmem1)
    have hInv2 := inv_loopBody b tasks _ d hInv1
    have hle2 := foldl_measure_le b tasks (List.range' (d + 1) (tasks.length - d - 1))
      _ hInv2
    omega

theorem scanOnce_of_done (b : Nat) (tasks : List Task) (s : LoopState)
    (hd : loopDone s = true) : scanOnce b tasks s = s := by
  have hl : s.running_processes.length = 0 ∧ s.waiting_processes.length = 0 := by
    simpa [loopDone] using hd
  have hr : s.running_processes = [] := List.length_eq_zero.mp hl.1
  have hw : s.waiting_processes = [] := List.length_eq_zero.mp hl.2
  apply foldl_not_mem
  intro e _
  rw [hr, hw]
  simp

theorem measure_zero_done (tasks : List Task) (s : LoopState)
    (h : loopMeasure tasks s = 0) : loopDone s = true := by
  unfold loopMeasure at h
  have hw : s.waiting_processes = [] := by
    cases hwl : s.waiting_processes with
    | nil => rfl
    | cons y l =>
      rw [hwl] at h
      simp only [List.map_cons, List.sum_cons] at h
      omega
  have hr : s.running_processes = [] := by
    cases hrl : s.running_processes with
    | nil => rfl
    | cons y l =>
      rw [hrl] at h
      simp only [List.map_cons, List.sum_cons] at h
      omega
  simp [loopDone, hw, hr]

theorem mainLoop_done (b : Nat) (tasks : List Task) (hb : 1 ≤ b) :
    ∀ (fuel : Nat) (s : LoopState), Inv b tasks s → loopMeasure tasks s ≤ fuel →
      loopDone (mainLoop b tasks (fuel + 1) s) = true := by
  intro fuel
  induction fuel with
  | zero =>
    intro s hInv hm
    have hd : loopDone s = true := measure_zero_done tasks s (by omega)
    show loopDone (mainLoop b tasks 1 s) = true
    unfold mainLoop
    rw [scanOnce_of_done b tasks s hd]
    simp [hd]
  | succ k ih =>
    intro s hInv hm
    unfold mainLoop
    split_ifs with hd
    · exact hd
    · apply ih
      · exact inv_scanOnce b tasks s hInv
      · have hsd : loopDone s = false := by
          cases hsd : loopDone s
          · rfl
          · rw [scanOnce_of_done b tasks s hsd] at hd
            exact absurd hsd hd
        have := scanOnce_measure_lt b tasks s hInv hb hsd
        omega

theorem length_filter_not (p : Nat → Bool) (l : List Nat) :
    (l.filter p).length + (l.filter (fun a => !p a)).length = l.length := by
  induction l with
  | nil => rfl
  | cons x l ih =>
    cases hx : p x <;> simp [List.filter_cons, hx] <;> omega

theorem length_filter_mem_or (n : Nat) (w r : List Nat) (hw : w.Nodup) (hr : r.Nodup)
    (hdisj : ∀ d ∈ w, d ∉ r) (hwlt : ∀ d ∈ w, d < n) (hrlt : ∀ d ∈ r, d < n) :
    ((List.range n).filter (fun d => decide (d ∈ w ∨ d ∈ r))).length
      = w.length + r.length := by
  have hnodup : ((List.range n).filter (fun d => decide (d ∈ w ∨ d ∈ r))).Nodup :=
    (List.nodup_range n).filter _
  have hset : ((List.range n).filter (fun d => decide (d ∈ w ∨ d ∈ r))).toFinset
      = w.toFinset ∪ r.toFinset := by
    ext x
    simp only [List.mem_toFinset, List.mem_filter, List.mem_range, Finset.mem_union,
      decide_eq_true_eq]
    constructor
    · rintro ⟨-, hx⟩
      exact hx
    · intro hx
      refine ⟨?_, hx⟩
      rcases hx with hx | hx
      · exact hwlt x hx
      · exact hrlt x hx
  have hdisjf : Disjoint w.toFinset r.toFinset := by
    rw [Finset.disjoint_left]
    intro a ha hb
    rw [List.mem_toFinset] at ha hb
    exact hdisj a ha hb
  calc ((List.range n).filter (fun d => decide (d ∈ w ∨ d ∈ r))).length
      = ((List.range n).filter (fun d => decide (d ∈ w ∨ d ∈ r))).toFinset.card :=
        (List.toFinset_card_of_nodup hnodup).symm
    _ = (w.toFinset ∪ r.toFinset).card := by rw [hset]
    _ = w.toFinset.card + r.toFinset.card := Finset.card_union_of_disjoint hdisjf
    _ = w.length + r.length := by
        rw [List.toFinset_card_of_nodup hw, List.toFinset_card_of_nodup hr]

theorem length_terminalTasks (b : Nat) (tasks : List Task) (s : LoopState)
    (hInv : Inv b tasks s) :
    (terminalTasks tasks s).length + s.waiting_processes.length +
      s.running_processes.length = tasks.length := by
  have hcongr : terminalTasks tasks s = (List.range tasks.length).filter
      (fun d => !decide (d ∈ s.waiting_processes ∨ d ∈ s.running_processes)) := by
    unfold terminalTasks
    apply List.filter_congr
    intro x _
    rw [← decide_not]
    apply decide_eq_decide.mpr
    tauto
  have hpart := length_filter_not
    (fun d => decide (d ∈ s.waiting_processes ∨ d ∈ s.running_processes))
    (List.range tasks.length)
  have hor := length_filter_mem_or tasks.length s.waiting_processes s.running_processes
    hInv.waiting_nodup hInv.running_nodup hInv.disj hInv.waiting_lt hInv.running_lt
  rw [hcongr]
  rw [List.length_range] at hpart
  omega

theorem completed_add_failed (tasks : List Task) (s : LoopState) :
    (completedTasks tasks s).length + (failedTasks tasks s).length
      = (terminalTasks tasks s).length := by
  have h1 : completedTasks tasks s = (terminalTasks tasks s).filter
      (fun d => decide ((tasks.getD d defaultTask).exitcode = 0)) := by
    unfold completedTasks terminalTasks
    rw [List.filter_filter]
    apply List.filter_congr
    intro x _
    by_cases hA : x ∈ s.waiting_processes <;>
      by_cases hB : x ∈ s.running_processes <;>
      by_cases hC : (tasks.getD x defaultTask).exitcode = 0 <;>
      simp [hA, hB, hC]
  have h2 : failedTasks tasks s = (terminalTasks tasks s).filter
      (fun d => !decide ((tasks.getD d defaultTask).exitcode = 0)) := by
    unfold failedTasks terminalTasks
    rw [List.filter_filter]
    apply List.filter_congr
    intro x _
    by_cases hA : x ∈ s.waiting_processes <;>
      by_cases hB : x ∈ s.running_processes <;>
      by_cases hC : (tasks.getD x defaultTask).exitcode = 0 <;>
      simp [hA, hB, hC]
  rw [h1, h2]
  exact length_filter_not _ (terminalTasks tasks s)

theorem length_failed_processes (b : Nat) (tasks : List Task) (s : LoopState)
    (hInv : Inv b tasks s) :
    s.failed_processes.length = (failedTasks tasks s).length := by
  have hnodupF : (failedTasks tasks s).Nodup := (List.nodup_range _).filter _
  have hset : s.failed_processes.toFinset = (failedTasks tasks s).toFinset := by
    ext x
    simp only [List.mem_toFinset]
    rw [hInv.failed_iff x]
    unfold failedTasks
    simp only [List.mem_filter, List.mem_range, decide_eq_true_eq]
  calc s.failed_processes.length = s.failed_processes.toFinset.card :=
        (List.toFinset_card_of_nodup hInv.failed_nodup).symm
    _ = (failedTasks tasks s).toFinset.card := by rw [hset]
    _ = (failedTasks tasks s).length := List.toFinset_card_of_nodup hnodupF

theorem done_lists (s : LoopState) (hdone : loopDone s = true) :
    s.waiting_processes = [] ∧ s.running_processes = [] := by
  have hl : s.running_processes.length = 0 ∧ s.waiting_processes.length = 0 := by
    simpa [loopDone] using hdone
  exact ⟨List.length_eq_zero.mp hl.2, List.length_eq_zero.mp hl.1⟩

theorem failed_mem_done (b : Nat) (tasks : List Task) (s : LoopState)
    (hInv : Inv b tasks s) (hdone : loopDone s = true) :
    ∀ d, d ∈ s.failed_processes ↔
      d < tasks.length ∧ (tasks.getD d defaultTask).exitcode ≠ 0 := by
  obtain ⟨hw, hr⟩ := done_lists s hdone
  intro d
  rw [hInv.failed_iff d]
  simp [hw, hr]

theorem loopBody_terminal_absorbing (b : Nat) (tasks : List Task) (s : LoopState)
    (e d : Nat) (hw : d ∉ s.waiting_processes) (hr : d ∉ s.running_processes) :
    d ∉ (loopBody b tasks s e).waiting_processes ∧
    d ∉ (loopBody b tasks s e).running_processes ∧
    (d ∈ s.failed_processes → d ∈ (loopBody b tasks s e).failed_processes) := by
  unfold loopBody
  split_ifs with hew heb her hea hee
  · exact ⟨hw, hr, id⟩
  · refine ⟨?_, ?_, id⟩
    · show d ∉ s.waiting_processes.erase e
      intro hc
      exact hw (List.mem_of_mem_erase hc)
    · show d ∉ s.running_processes ++ [e]
      intro hc
      rcases List.mem_append.mp hc with hc | hc
      · exact hr hc
      · rw [List.mem_singleton.mp hc] at hw
        exact hw hew
  · exact ⟨hw, hr, id⟩
  · refine ⟨hw, ?_, ?_⟩
    · intro hc
      exact hr (List.mem_of_mem_erase hc)
    · intro hfd
      show d ∈ s.failed_processes ++ [e]
      exact List.mem_append.mpr (Or.inl hfd)
  · refine ⟨hw, ?_, id⟩
    intro hc
    exact hr (List.mem_of_mem_erase hc)
  · exact ⟨hw, hr, id⟩

theorem loopBody_running_le (b : Nat) (tasks : List Task) (s : LoopState) (d : Nat)
    (h : s.running_processes.length ≤ b) :
    (loopBody b tasks s d).running_processes.length ≤ b := by
  unfold loopBody
  split_ifs with hw hb hr ha he
  · exact h
  · show (s.running_processes ++ [d]).length ≤ b
    simp only [List.length_append, List.length_singleton]
    omega
  · exact h
  · exact le_trans (List.length_erase_le d _) h
  · exact le_trans (List.length_erase_le d _) h
  · exact h

theorem foldl_running_le (b : Nat) (tasks : List Task) (l : List Nat) :
    ∀ s : LoopState, s.running_processes.length ≤ b →
      (l.foldl (loopBody b tasks) s).running_processes.length ≤ b := by
  induction l with
  | nil =>
    intro s h
    exact h
  | cons e l ih =>
    intro s h
    exact ih _ (loopBody_running_le b tasks s e h)

theorem mainLoop_running_le (b : Nat) (tasks : List Task) (fuel : Nat) :
    ∀ s : LoopState, s.running_processes.length ≤ b →
      (mainLoop b tasks fuel s).running_processes.length ≤ b := by
  induction fuel with
  | zero =>
    intro s h
    exact h
  | succ n ih =>
    intro s h
    unfold mainLoop
    split_ifs with hd
    · exact foldl_running_le b tasks _ s h
    · exact ih _ (foldl_running_le b tasks _ s h)

theorem childProcessKeys_go (l : List String) :
    ∀ acc : List String, acc.Nodup →
      (l.foldl (fun keys d => if d ∈ keys then keys else keys ++ [d]) acc).Nodup ∧
      (∀ x, x ∈ l.foldl (fun keys d => if d ∈ keys then keys else keys ++ [d]) acc ↔
        x ∈ acc ∨ x ∈ l) := by
  induction l with
  | nil =>
    intro acc hacc
    refine ⟨hacc, fun x => by simp⟩
  | cons d l ih =>
    intro acc hacc
    rw [List.foldl_cons]
    by_cases hd : d ∈ acc
    · rw [if_pos hd]
      obtain ⟨h1, h2⟩ := ih acc hacc
      refine ⟨h1, fun x => ?_⟩
      rw [h2 x]
      constructor
      · rintro (hx | hx)
        · exact Or.inl hx
        · exact Or.inr (List.mem_cons_of_mem d hx)
      · rintro (hx | hx)
        · exact Or.inl hx
        · rcases List.mem_cons.mp hx with rfl | hx
          · exact Or.inl hd
          · exact Or.inr hx
    · rw [if_neg hd]
      have hacc2 : (acc ++ [d]).Nodup := by simp [List.nodup_append, hacc, hd]
      obtain ⟨h1, h2⟩ := ih (acc ++ [d]) hacc2
      refine ⟨h1, fun x => ?_⟩
      rw [h2 x]
      simp only [List.mem_append, List.mem_singleton, List.mem_cons]
      tauto

theorem childProcessKeys_spec (workspaces : List String) :
    (childProcessKeys workspaces).Nodup ∧
    (∀ d, d ∈ childProcessKeys workspaces ↔ d ∈ workspaces) ∧
    (childProcessKeys workspaces).length = workspaces.toFinset.card := by
  obtain ⟨h1, h2⟩ := childProcessKeys_go workspaces [] List.nodup_nil
  have h1' : (childProcessKeys workspaces).Nodup := h1
  have h2' : ∀ d, d ∈ childProcessKeys workspaces ↔ d ∈ workspaces := by
    intro d
    have := h2 d
    simp only [List.not_mem_nil, false_or] at this
    exact this
  refine ⟨h1', h2', ?_⟩
  have hset : (childProcessKeys workspaces).toFinset = workspaces.toFinset := by
    ext x
    rw [List.mem_toFinset, List.mem_toFinset]
    exact h2' x
  calc (childProcessKeys workspaces).length
      = (childProcessKeys workspaces).toFinset.card :=
        (List.toFinset_card_of_nodup h1').symm
    _ = workspaces.toFinset.card := by rw [hset]

/-- C1: at every instant of the scheduling loop the running set is within
the concurrency budget.  A waiting task is started only when the running set
is strictly below `max_processes`, so from any state within the budget,
`|running| ≤ max_processes` holds after every single per-task step of the
scan and after any number of whole loop iterations. -/
theorem running_never_exceeds_budget (b : Nat) (tasks : List Task) (s : LoopState)
    (h : s.running_processes.length ≤ b) :
    (∀ d, (loopBody b tasks s d).running_processes.length ≤ b) ∧
    (∀ d, d ∈ s.waiting_processes → d ∉ s.running_processes →
      d ∈ (loopBody b tasks s d).running_processes →
      s.running_processes.length < b) ∧
    (∀ fuel, (mainLoop b tasks fuel s).running_processes.length ≤ b) := by
  refine ⟨fun d => loopBody_running_le b tasks s d h, ?_, fun fuel =>
    mainLoop_running_le b tasks fuel s h⟩
  intro d hdw hdr hmem
  by_contra hge
  have hge' : b ≤ s.running_processes.length := by omega
  have hskip : loopBody b tasks s d = s := by
    unfold loopBody
    rw [if_pos hdw, if_pos hge']
  rw [hskip] at hmem
  exact hdr hmem

theorem running_never_exceeds_budget_holds :
    (initState tasks2).running_processes.length ≤ 1 ∧
    (mainLoop 1 tasks2 5 (initState tasks2)).running_processes.length ≤ 1 :=
  ⟨by decide,
    (running_never_exceeds_budget 1 tasks2 (initState tasks2) (by decide)).2.2 5⟩

/-- C2: in any loop state satisfying the invariant in which the loop has
terminated, every registered task is in exactly one terminal state
determined solely by its exit code: the failed list holds exactly the tasks
with a nonzero exit code, the Completed tasks are exactly those with exit
code 0, no task is in both, and a single per-task step never moves a task
out of a terminal state. -/
theorem terminal_states (b : Nat) (tasks : List Task) (s : LoopState)
    (hInv : Inv b tasks s) (hdone : loopDone s = true) :
    (∀ d, d ∈ s.failed_processes ↔
      d < tasks.length ∧ (tasks.getD d defaultTask).exitcode ≠ 0) ∧
    (∀ d, d ∈ completedTasks tasks s ↔
      d < tasks.length ∧ (tasks.getD d defaultTask).exitcode = 0) ∧
    (∀ d, ¬ (d ∈ completedTasks tasks s ∧ d ∈ failedTasks tasks s)) ∧
    (∀ (t : LoopState) (e d : Nat), d ∉ t.waiting_processes →
      d ∉ t.running_processes →
      d ∉ (loopBody b tasks t e).waiting_processes ∧
      d ∉ (loopBody b tasks t e).running_processes ∧
      (d ∈ t.failed_processes → d ∈ (loopBody b tasks t e).failed_processes)) := by
  obtain ⟨hw, hr⟩ := done_lists s hdone
  refine ⟨failed_mem_done b tasks s hInv hdone, ?_, ?_, ?_⟩
  · intro d
    unfold completedTasks
    simp [List.mem_filter, List.mem_range, hw, hr]
  · rintro d ⟨hc, hf⟩
    have h1 := (List.mem_filter.mp hc).2
    have h2 := (List.mem_filter.mp hf).2
    simp only [decide_eq_true_eq] at h1 h2
    exact h2.2.2 h1.2.2
  · intro t e d hdw hdr
    exact loopBody_terminal_absorbing b tasks t e d hdw hdr

theorem terminal_states_holds :
    loopDone (mainLoop 1 tasks2 5 (initState tasks2)) = true ∧
    (0 ∈ (mainLoop 1 tasks2 5 (initState tasks2)).failed_processes ↔
      0 < tasks2.length ∧ (tasks2.getD 0 defaultTask).exitcode ≠ 0) :=
  ⟨by decide,
    (terminal_states 1 tasks2 (mainLoop 1 tasks2 5 (initState tasks2))
      (inv_mainLoop 1 tasks2 5 (initState tasks2) (inv_init 1 tasks2))
      (by decide)).1 0⟩

/-- C3: after the loop has terminated the orchestrating process exits with
status 0 exactly when no task failed and with status 1 exactly when some
task failed; in non-parallel mode a workspace whose action raises makes the
process exit with status 1 immediately, skipping the remaining
workspaces. -/
theorem exit_status_summary (b : Nat) (tasks : List Task) (s : LoopState)
    (hInv : Inv b tasks s) (hdone : loopDone s = true) :
    (summaryExit s.failed_processes = 0 ↔
      ∀ d, d < tasks.length → (tasks.getD d defaultTask).exitcode = 0) ∧
    (summaryExit s.failed_processes = 1 ↔
      ∃ d, d < tasks.length ∧ (tasks.getD d defaultTask).exitcode ≠ 0) ∧
    (∀ rest, nonParallelRun (false :: rest) = 1) := by
  have hmem := failed_mem_done b tasks s hInv hdone
  have hiff : s.failed_processes = [] ↔
      ∀ d, d < tasks.length → (tasks.getD d defaultTask).exitcode = 0 := by
    constructor
    · intro he d hdn
      by_contra hex
      have hd : d ∈ s.failed_processes := (hmem d).mpr ⟨hdn, hex⟩
      rw [he] at hd
      simp at hd
    · intro hall
      cases hfe : s.failed_processes with
      | nil => rfl
      | cons y l =>
        have hy : y ∈ s.failed_processes := by
          rw [hfe]
          exact List.mem_cons_self y l
        have hym := (hmem y).mp hy
        exact absurd (hall y hym.1) hym.2
  refine ⟨?_, ?_, fun rest => rfl⟩
  · constructor
    · intro h0
      apply hiff.mp
      by_contra hne2
      rw [summaryExit, if_pos (List.length_pos.mpr hne2)] at h0
      exact one_ne_zero h0
    · intro hall
      have he := hiff.mpr hall
      rw [summaryExit, he]
      simp
  · constructor
    · intro h1
      have hne2 : s.failed_processes ≠ [] := by
        intro he
        rw [summaryExit, he] at h1
        simp at h1
      obtain ⟨y, hy⟩ := List.exists_mem_of_ne_nil _ hne2
      have hym := (hmem y).mp hy
      exact ⟨y, hym.1, hym.2⟩
    · rintro ⟨d, hdn, hex⟩
      have hd : d ∈ s.failed_processes := (hmem d).mpr ⟨hdn, hex⟩
      have hp : 0 < s.failed_processes.length := by
        apply List.length_pos.mpr
        intro he
        rw [he] at hd
        simp at hd
      rw [summaryExit, if_pos hp]

theorem exit_status_summary_holds :
    loopDone (mainLoop 1 tasks2 5 (initState tasks2)) = true ∧
    (summaryExit (mainLoop 1 tasks2 5 (initState tasks2)).failed_processes = 1 ↔
      ∃ d, d < tasks2.length ∧ (tasks2.getD d defaultTask).exitcode ≠ 0) :=
  ⟨by decide,
    (exit_status_summary 1 tasks2 (mainLoop 1 tasks2 5 (initState tasks2))
      (inv_mainLoop 1 tasks2 5 (initState tasks2) (inv_init 1 tasks2))
      (by decide)).2.1⟩

/-- C4: after the loop has terminated, the number of tasks that ended
Completed plus the number that ended Failed equals the number of registered
tasks, and the loop's completed counter equals that total as well. -/
theorem summary_partition (b : Nat) (tasks : List Task) (s : LoopState)
    (hInv : Inv b tasks s) (hdone : loopDone s = true) :
    (completedTasks tasks s).length + (failedTasks tasks s).length = tasks.length ∧
    s.completed_processes = tasks.length := by
  obtain ⟨hw, hr⟩ := done_lists s hdone
  have h1 := length_terminalTasks b tasks s hInv
  have h2 := completed_add_failed tasks s
  have h3 := hInv.completed_eq
  rw [hw, hr] at h1 h3
  simp only [List.length_nil] at h1 h3
  exact ⟨by omega, by omega⟩

theorem summary_partition_holds :
    loopDone (mainLoop 1 tasks2 5 (initState tasks2)) = true ∧
    ((completedTasks tasks2 (mainLoop 1 tasks2 5 (initState tasks2))).length +
      (failedTasks tasks2 (mainLoop 1 tasks2 5 (initState tasks2))).length
        = tasks2.length ∧
      (mainLoop 1 tasks2 5 (initState tasks2)).completed_processes = tasks2.length) :=
  ⟨by decide,
    summary_partition 1 tasks2 (mainLoop 1 tasks2 5 (initState tasks2))
      (inv_mainLoop 1 tasks2 5 (initState tasks2) (inv_init 1 tasks2))
      (by decide)⟩

/-- C5: for every registered task list the loop terminates as long as the
budget admits at least one process at a time: running it with fuel
`loopMeasure + 1` from the initial state reaches the exit condition (every
started process is observed to exit after finitely many polls by
construction of `rem`).  With zero registered tasks the exit condition
holds in the initial state already. -/
theorem loop_terminates (b : Nat) (tasks : List Task) (hb : 1 ≤ b) :
    loopDone (mainLoop b tasks (loopMeasure tasks (initState tasks) + 1)
      (initState tasks)) = true ∧
    loopDone (initState []) = true :=
  ⟨mainLoop_done b tasks hb (loopMeasure tasks (initState tasks))
    (initState tasks) (inv_init b tasks) (le_refl _), by decide⟩

theorem loop_terminates_holds :
    (1 : Nat) ≤ 1 ∧
    (loopDone (mainLoop 1 tasks2 (loopMeasure tasks2 (initState tasks2) + 1)
        (initState tasks2)) = true ∧
      loopDone (initState []) = true) :=
  ⟨by decide, loop_terminates 1 tasks2 (by decide)⟩

/-- C6: the computed concurrency budget with no overrides is
`floor(total_physical_memory_bytes / 2^29)` (512 MiB per task), but both
configuration overrides are broken in the code: setting MEM_PER_PROCESS
makes the budget computation raise a TypeError (a float is divided by the
string returned by `os.environ.get`), and setting MAX_PROCESSES stores the
string, so the admission comparison `len(running_processes) >= max_processes`
raises a TypeError. -/
theorem budget_and_env_overrides :
    (∀ physBytes : Nat, max_processes_value physBytes none none =
      Except.ok (PyVal.int ((physBytes / 2 ^ 29 : Nat) : Int))) ∧
    (∀ (physBytes : Nat) (v : String) (e : Option String),
      max_processes_value physBytes (some v) e =
      Except.error ("TypeError: unsupported operand types for div")) ∧
    (∀ (physBytes : Nat) (v : String),
      max_processes_value physBytes none (some v) = Except.ok (PyVal.str v)) ∧
    (∀ (len : Nat) (v : String),
      pyGeLen len (PyVal.str v) =
      Except.error ("TypeError: ge not supported between int and str")) := by
  refine ⟨?_, fun B v e => rfl, fun B v => rfl, fun len v => rfl⟩
  intro B
  unfold max_processes_value pyDivFloat mem_per_process mem_mb
  dsimp only
  have hq : (B : ℚ) / 1024 ^ 2 / ((512 : ℤ) : ℚ)
      = ((B : ℤ) : ℚ) / ((2 ^ 29 : ℕ) : ℚ) := by
    push_cast
    rw [div_div]
    norm_num
  have hfloor : ⌊(B : ℚ) / 1024 ^ 2 / ((512 : ℤ) : ℚ)⌋ = ((B / 2 ^ 29 : Nat) : Int) := by
    rw [hq, Rat.floor_intCast_div_natCast]
    exact_mod_cast rfl
  rw [hfloor]

/-- C7 counterexample: with the workspace list ["a", "a"] the task mapping
registers a single task, not one per entry. -/
theorem dup_workspaces_collapse :
    ¬ ((childProcessKeys ["a", "a"]).length = (["a", "a"] : List String).length) := by
  decide

/-- C7 amended: duplicate entries in the workspace list are collapsed by the
workspace-keyed task mapping, so the registered tasks are the distinct
workspace paths of the invocation and their number is the number of
distinct entries. -/
theorem childProcessKeys_dedup (workspaces : List String) :
    (childProcessKeys workspaces).Nodup ∧
    (∀ d, d ∈ childProcessKeys workspaces ↔ d ∈ workspaces) ∧
    (childProcessKeys workspaces).length = workspaces.toFinset.card :=
  childProcessKeys_spec workspaces

/-- C8 counterexample: in parallel init mode with workspaces ["a", "b"]
only one task is registered — the first workspace is handled inline and
gets no Task. -/
theorem init_first_workspace_not_registered :
    ¬ ((registeredWorkspaces "init" ["a", "b"]).length =
      (["a", "b"] : List String).length) := by
  decide

/-- C8 amended: in parallel mode the plan and apply stages register exactly
one task per distinct workspace entry, while the init stage processes the
first workspace inline and registers tasks only for the remaining
workspaces. -/
theorem stage_registration (workspaces : List String) :
    (∀ d, d ∈ registeredWorkspaces "plan" workspaces ↔ d ∈ workspaces) ∧
    (∀ d, d ∈ registeredWorkspaces "apply" workspaces ↔ d ∈ workspaces) ∧
    (registeredWorkspaces "plan" workspaces).length = workspaces.toFinset.card ∧
    (registeredWorkspaces "apply" workspaces).length = workspaces.toFinset.card ∧
    (∀ d, d ∈ registeredWorkspaces "init" workspaces ↔ d ∈ workspaces.tail) ∧
    (registeredWorkspaces "init" workspaces).length
      = workspaces.tail.toFinset.card := by
  have hplan : registeredWorkspaces "plan" workspaces = childProcessKeys workspaces := by
    unfold registeredWorkspaces
    rw [if_neg (by decide), if_pos (by decide)]
  have happly : registeredWorkspaces "apply" workspaces = childProcessKeys workspaces := by
    unfold registeredWorkspaces
    rw [if_neg (by decide), if_pos (by decide)]
  have hinit : registeredWorkspaces "init" workspaces
      = childProcessKeys workspaces.tail := by
    unfold registeredWorkspaces
    rw [if_pos rfl]
  obtain ⟨-, hmem, hlen⟩ := childProcessKeys_spec workspaces
  obtain ⟨-, hmemt, hlent⟩ := childProcessKeys_spec workspaces.tail
  refine ⟨?_, ?_, ?_, ?_, ?_, ?_⟩
  · intro d
    rw [hplan]
    exact hmem d
  · intro d
    rw [happly]
    exact hmem d
  · rw [hplan]
    exact hlen
  · rw [happly]
    exact hlen
  · intro d
    rw [hinit]
    exact hmemt d
  · rw [hinit]
    exact hlent

/-- C10: the completed counter is incremented on every reap regardless of
exit status, so in every state satisfying the loop invariant it equals the
number of terminal tasks, and the number of tasks that ended Completed is
the counter minus the length of the failed list (whose length is the number
of Failed tasks). -/
theorem completed_counter_counts_all (b : Nat) (tasks : List Task) (s : LoopState)
    (hInv : Inv b tasks s) :
    s.completed_processes = (terminalTasks tasks s).length ∧
    (completedTasks tasks s).length
      = s.completed_processes - s.failed_processes.length ∧
    s.failed_processes.length = (failedTasks tasks s).length := by
  have h1 := length_terminalTasks b tasks s hInv
  have h2 := completed_add_failed tasks s
  have h3 := hInv.completed_eq
  have h4 := length_failed_processes b tasks s hInv
  exact ⟨by omega, by omega, h4⟩

theorem completed_counter_counts_all_holds :
    (mainLoop 1 tasks2 3 (initState tasks2)).completed_processes
      = (terminalTasks tasks2 (mainLoop 1 tasks2 3 (initState tasks2))).length ∧
    (completedTasks tasks2 (mainLoop 1 tasks2 3 (initState tasks2))).length
      = (mainLoop 1 tasks2 3 (initState tasks2)).completed_processes -
        (mainLoop 1 tasks2 3 (initState tasks2)).failed_processes.length ∧
    (mainLoop 1 tasks2 3 (initState tasks2)).failed_processes.length
      = (failedTasks tasks2 (mainLoop 1 tasks2 3 (initState tasks2))).length :=
  completed_counter_counts_all 1 tasks2 (mainLoop 1 tasks2 3 (initState tasks2))
    (inv_mainLoop 1 tasks2 3 (initState tasks2) (inv_init 1 tasks2))

end AdfParallelTerraform

namespace Terraform

/-- C9: `Terraform.apply` with no plan artifact in the workspace first runs
a plan (producing the artifact) and then applies it, while with the
artifact present it applies directly without re-planning; in both cases the
caller observes only the overall success of the method (the exit status of
the task process). -/
theorem apply_plans_when_artifact_missing (applyOk : Bool) :
    (applyRun false true applyOk).commands = [TfCmd.planCmd, TfCmd.applyCmd] ∧
    (applyRun false true applyOk).planFileExists = true ∧
    (applyRun false true applyOk).ok = applyOk ∧
    (∀ planOk, (applyRun true planOk applyOk).commands = [TfCmd.applyCmd] ∧
      TfCmd.planCmd ∉ (applyRun true planOk applyOk).commands ∧
      (applyRun true planOk applyOk).ok = applyOk) := by
  refine ⟨rfl, rfl, rfl, ?_⟩
  intro planOk
  refine ⟨rfl, ?_, rfl⟩
  intro hc
  rw [show (applyRun true planOk applyOk).commands = [TfCmd.applyCmd] from rfl] at hc
  simp at hc

end Terraform
